import Mathlib

/-!
# Verification of the `slice` package (cirius-go/devutil)

Shallow embedding of `src/slice/slice.go` and `src/slice/error.go`.

Conventions of the embedding:
* A Go slice value that may be `nil` is modelled as `Option (List α)`
  (`none` = nil slice) where the nil/non-nil distinction matters
  (`Chunk`, `Flatten`); elsewhere a slice is a plain `List α`.
* A Go `error` value that may be nil is `Option Err`; the type parameter
  `Err` stands for a non-nil Go error value, compared by identity
  (the comparison `errors.Is` performs on unwrapped members).
* A Go function value that may be nil is `Option (… → …)`; calling a
  `none` function is a runtime panic.
* A runtime panic is modelled as `Except.error` (for `Collect`, whose
  payload is observable by the caller) or as a `none` overall outcome
  (for `ForEachChunk`).
-/

set_option autoImplicit false

namespace Slice

/-- Go `slice.ElemError[In]`: an error attached to one slice element
during `Continue`/`Stop`.  `index` is the engine's loop counter
(always ≥ 0, hence `Nat`), `value` the element, `err` the (non-nil)
underlying error. -/
structure ElemError (In : Type) (Err : Type) where
  index : Nat
  value : In
  err : Err
deriving DecidableEq, Repr

/-- Go `slice.SliceError[In]`: a list of element errors.  The Go value is
a slice of pointers; every entry is constructed non-nil, so a plain list. -/
abbrev SliceError (In : Type) (Err : Type) := List (ElemError In Err)

/-- Go `SliceError.At`: the wrapped element error at `index`, or nil
(`none`) when the aggregate is empty or `index` is out of range.  The Go
parameter is an `int`, hence `Int` here. -/
def SliceError.At {In Err : Type} (e : SliceError In Err) (index : Int) :
    Option (ElemError In Err) :=
  if e.length = 0 then none
  else if index < 0 ∨ (e.length : Int) ≤ index then none
  else e[index.toNat]?

/-- Go `SliceError.OriginAt`: the bare underlying error at `index`, or
nil (`none`) when the aggregate is empty or `index` is out of range. -/
def SliceError.OriginAt {In Err : Type} (e : SliceError In Err) (index : Int) :
    Option Err :=
  if e.length = 0 then none
  else if index < 0 ∨ (e.length : Int) ≤ index then none
  else match e[index.toNat]? with
    | some el => some el.err
    | none => none

/-- Go `SliceError.Unwrap`: nil for an empty aggregate, otherwise
`errors.Join` of the underlying errors.  The joined error is modelled as
the list of joined (non-nil) errors; `errors.Is(joined, e)` succeeds
exactly when `e` is a member of that list. -/
def SliceError.Unwrap {In Err : Type} (e : SliceError In Err) : Option (List Err) :=
  if e.length = 0 then none
  else some (e.map ElemError.err)

/-- The loop `for size < len(input) { input, chunks = input[size:],
append(chunks, input[0:size:size]) }; chunks = append(chunks, input)` of
Go `slice.Chunk`, for the already-defaulted positive size. -/
def chunkBy {In : Type} (size : Nat) (input : List In) : List (List In) :=
  if _h : 0 < size ∧ size < input.length then
    input.take size :: chunkBy size (input.drop size)
  else
    [input]
termination_by input.length
decreasing_by simp only [List.length_drop]; omega

/-- The chunk list Go `slice.Chunk` computes for a non-nil input slice:
empty input yields no chunks, otherwise `size` is defaulted to 1 when
non-positive and the chunking loop runs. -/
def chunksOf {In : Type} (input : List In) (size : Int) : List (List In) :=
  if input.length = 0 then []
  else chunkBy (if size ≤ 0 then 1 else size).toNat input

/-- Go `slice.Chunk`: nil in → nil out, otherwise the chunk list of the
underlying elements. -/
def Chunk {In : Type} (input : Option (List In)) (size : Int) :
    Option (List (List In)) :=
  match input with
  | none => none
  | some l => some (chunksOf l size)

/-- Go `slice.Flatten`: nil in → nil out; empty in → empty non-nil out;
otherwise the concatenation of the inner slices. -/
def Flatten {In : Type} (input : Option (List (List In))) : Option (List In) :=
  match input with
  | none => none
  | some l => if l.length = 0 then some [] else some l.flatten

/-- What one invocation of a `Collect` step function does to its
`CollectorContext`.  The Go handler mutates the context: `SetValue`
stores a value (the last call wins), and `Continue`/`Stop` record their
variadic error arguments and leave by panicking with the corresponding
internal control signal.  Each constructor carries the last `SetValue`
argument (if any) made before the exit, and for `Continue`/`Stop` the
raw variadic arguments (nil entries as `none`).  `fail` is any panic
whose payload is not one of the two control signals caught by the
engine; its payload type `P` is abstract. -/
inductive StepAct (Out : Type) (Err : Type) (P : Type) where
  | finish (value : Option Out)
  | callContinue (value : Option Out) (args : List (Option Err))
  | callStop (value : Option Out) (args : List (Option Err))
  | fail (value : Option Out) (payload : P)
deriving DecidableEq, Repr

/-- The `for _, err := range errs { if err != nil { append(..., &ElemError{
Index, Value, err}) } }` loop shared by `Continue` and `Stop`: the element
errors attached for the non-nil entries of the variadic arguments. -/
def attachErrs {In Err : Type} (index : Nat) (value : In)
    (args : List (Option Err)) : SliceError In Err :=
  args.filterMap (fun a => a.map (fun e => ElemError.mk index value e))

/-- The `for i := range input` loop of Go `slice.Collect`, together with a
ghost trace of the indices at which the handler was invoked.  Per element:
a `finish` appends the set value (if any) to `result`; a `callContinue`
appends its attached errors and proceeds; a `callStop` appends its
attached errors and breaks; a `fail` re-panics (`Except.error`). -/
def collectLoop {In Out Err P : Type} (handler : Nat → In → StepAct Out Err P) :
    List In → Nat → List Out → SliceError In Err →
    List Nat × Except P (List Out × SliceError In Err)
  | [], _, result, errs => ([], .ok (result, errs))
  | x :: rest, i, result, errs =>
    match handler i x with
    | .finish value =>
      let next := collectLoop handler rest (i + 1)
        (match value with
         | some v => result ++ [v]
         | none => result) errs
      (i :: next.1, next.2)
    | .callContinue _ args =>
      let next := collectLoop handler rest (i + 1) result (errs ++ attachErrs i x args)
      (i :: next.1, next.2)
    | .callStop _ args => ([i], .ok (result, errs ++ attachErrs i x args))
    | .fail _ p => ([i], .error p)

/-- Go `slice.Collect`.  The handler is `Option`-typed (a nil Go function
value is `none`); it is modelled as a pure map from loop index and element
to the `StepAct` it performs.  Result: `Except.error p` when the handler
panics with a non-signal payload `p`; otherwise the collected outputs and
the aggregate error (`none` when no element error was recorded, mirroring
`if len(errs) == 0 { return result, nil }`). -/
def Collect {In Out Err P : Type} (input : List In)
    (handler : Option (Nat → In → StepAct Out Err P)) :
    Except P (List Out × Option (SliceError In Err)) :=
  match handler with
  | none => .ok ([], none)
  | some h =>
    if input.length = 0 then .ok ([], none)
    else
      match (collectLoop h input 0 [] []).2 with
      | .error p => .error p
      | .ok (result, errs) =>
        if errs.length = 0 then .ok (result, none)
        else .ok (result, some errs)

/-- Ghost observation: the indices at which `Collect` invoked the handler,
in invocation order.  Empty input or a nil handler invokes nothing. -/
def CollectVisited {In Out Err P : Type} (input : List In)
    (handler : Option (Nat → In → StepAct Out Err P)) : List Nat :=
  match handler with
  | none => []
  | some h =>
    if input.length = 0 then []
    else (collectLoop h input 0 [] []).1

/-- The step function Go `slice.Filter` passes to `Collect`: it calls
`Continue()` when the predicate rejects the element, and `SetValue(val)`
otherwise.  It supplies no errors and never fails, hence the `Empty`
instantiations. -/
def filterStep {In : Type} (p : In → Bool) : Nat → In → StepAct In Empty Empty :=
  fun _ val => if ¬ p val then .callContinue none [] else .finish (some val)

/-- Go `slice.Filter`, built on `Collect` exactly as in the source; empty
input or a nil predicate returns the input itself. -/
def Filter {In : Type} (input : List In) (predicate : Option (In → Bool)) :
    List In :=
  if input.length = 0 ∨ predicate.isNone then input
  else
    match predicate with
    | none => input
    | some p =>
      match @Collect In In Empty Empty input
        (some (filterStep p)) with
      | .ok (res, _) => res
      | .error e => e.elim

/-- The sequential (`concurrency <= 1`) loop of Go `slice.ForEachChunk`,
with a ghost trace of the chunks on which the handler was invoked.
Calling a nil handler is a runtime panic (overall outcome `none`); a
non-nil error from the handler is returned at once, skipping the
remaining chunks.  Outcome `some none` is a nil-error return. -/
def seqChunks {In Err : Type} (handler : Option (List In → Option Err)) :
    List (List In) → List (List In) × Option (Option Err)
  | [] => ([], some none)
  | c :: rest =>
    match handler with
    | none => ([c], none)
    | some h =>
      match h c with
      | some err => ([c], some (some err))
      | none =>
        let next := seqChunks handler rest
        (c :: next.1, next.2)

/-- The concurrent (`concurrency > 1`) path of Go `slice.ForEachChunk`:
every chunk is dispatched and its handler runs to completion before
`wg.Wait()` returns; the errors sent to `errChan` are the non-nil handler
results, and the first one received (here: the first in chunk order, a
determinization of the unspecified channel order) is returned, or nil if
none.  A nil handler panics in the first dispatched goroutine. -/
def concChunks {In Err : Type} (handler : Option (List In → Option Err))
    (chunks : List (List In)) : List (List In) × Option (Option Err) :=
  match handler with
  | none => (chunks.take 1, none)
  | some h => (chunks, some (chunks.filterMap h).head?)

/-- Go `slice.ForEachChunk` with a ghost trace of the chunks on which the
handler was invoked.  Empty input returns nil without touching the
handler; otherwise the input is chunked and processed sequentially or
concurrently according to `concurrency`. -/
def ForEachChunkTrace {In Err : Type} (input : List In)
    (chunkSize concurrency : Int)
    (handler : Option (List In → Option Err)) :
    List (List In) × Option (Option Err) :=
  if input.length = 0 then ([], some none)
  else
    let chunks := chunksOf input chunkSize
    if concurrency ≤ 1 then seqChunks handler chunks
    else concChunks handler chunks

/-- Go `slice.ForEachChunk`: the returned value alone.  `none` = the call
panicked; `some none` = returned nil; `some (some e)` = returned error
`e`. -/
def ForEachChunk {In Err : Type} (input : List In)
    (chunkSize concurrency : Int)
    (handler : Option (List In → Option Err)) : Option (Option Err) :=
  (ForEachChunkTrace input chunkSize concurrency handler).2

/-- An act after which the engine's loop proceeds to the next index:
a normal return or a `Continue` signal (not `Stop`, not a panic). -/
def StepAct.proceeds {Out Err P : Type} : StepAct Out Err P → Bool
  | .finish _ => true
  | .callContinue _ _ => true
  | .callStop _ _ => false
  | .fail _ _ => false

/-- An act that panics with a payload the engine does not recognize. -/
def StepAct.isFail {Out Err P : Type} : StepAct Out Err P → Bool
  | .fail _ _ => true
  | _ => false

/-- The non-nil errors an act supplied to `Continue` or `Stop`. -/
def StepAct.suppliedErrs {Out Err P : Type} : StepAct Out Err P → List Err
  | .callContinue _ args => args.filterMap id
  | .callStop _ args => args.filterMap id
  | _ => []

/-- Specification-side description of the outputs a run of the loop
accumulates over a segment of the input starting at index `i`, assuming
every act in the segment proceeds: the values of the normal returns that
set one. -/
def keptValues {In Out Err P : Type} (h : Nat → In → StepAct Out Err P) :
    List In → Nat → List Out
  | [], _ => []
  | x :: rest, i =>
    match h i x with
    | .finish (some v) => v :: keptValues h rest (i + 1)
    | _ => keptValues h rest (i + 1)

/-- Specification-side description of the element errors the loop
accumulates over a segment starting at index `i`, assuming every act in
the segment proceeds: the attached errors of the `Continue` calls. -/
def skipErrors {In Out Err P : Type} (h : Nat → In → StepAct Out Err P) :
    List In → Nat → SliceError In Err
  | [], _ => []
  | x :: rest, i =>
    match h i x with
    | .callContinue _ args => attachErrs i x args ++ @skipErrors In Out Err P h rest (i + 1)
    | _ => @skipErrors In Out Err P h rest (i + 1)

/-- The aggregate `Collect` returns for a recorded error list: nil when
empty, the `SliceError` itself otherwise. -/
def mkAgg {In Err : Type} (l : SliceError In Err) : Option (SliceError In Err) :=
  if l.length = 0 then none else some l

/-- Concrete chunk handler used in concrete instantiations: errs on the
chunk `[0]`. -/
def wChunkErr0 : List Nat → Option Nat :=
  fun c => if c = [0] then some 1 else none

/-- Concrete chunk handler used in concrete instantiations: errs on the
chunk `[0, 1]`. -/
def wChunkErr01 : List Nat → Option Nat :=
  fun c => if c = [0, 1] then some 7 else none

/-- Concrete step function: keeps each element, but at index 1 sets a
value and then calls `Stop(err5, nil)`. -/
def wStepStop1 : Nat → Nat → StepAct Nat Nat Nat :=
  fun i x => if i = 0 then .finish (some x) else .callStop (some 99) [some 5, none]

/-- Concrete step function: keeps each element, but at index 1 sets a
value and then calls `Continue(nil, err7)`. -/
def wStepCont1 : Nat → Nat → StepAct Nat Nat Nat :=
  fun i x => if i = 1 then .callContinue (some 42) [none, some 7] else .finish (some x)

/-- Concrete step function: keeps each element, but at index 1 raises an
unrelated failure with payload 3. -/
def wStepFail1 : Nat → Nat → StepAct Nat Nat Nat :=
  fun i x => if i = 1 then .fail none 3 else .finish (some x)

theorem chunkBy_flatten {In : Type} (size : Nat) (input : List In) :
    (chunkBy size input).flatten = input := by
  rw [chunkBy]
  split
  · rename_i h
    rw [List.flatten_cons, chunkBy_flatten size (input.drop size),
      List.take_append_drop]
  · simp
termination_by input.length
decreasing_by simp only [List.length_drop]; omega

theorem chunkBy_ne_nil {In : Type} (size : Nat) (input : List In) :
    chunkBy size input ≠ [] := by
  rw [chunkBy]
  split <;> simp

theorem chunkBy_dropLast_length {In : Type} (size : Nat) (input : List In) :
    ∀ c ∈ (chunkBy size input).dropLast, c.length = size := by
  rw [chunkBy]
  split
  · rename_i h
    rw [List.dropLast_cons_of_ne_nil (chunkBy_ne_nil size (input.drop size))]
    intro c hc
    rcases List.mem_cons.mp hc with hc | hc
    · subst hc
      simp [List.length_take]
      omega
    · exact chunkBy_dropLast_length size (input.drop size) c hc
  · simp
termination_by input.length
decreasing_by simp only [List.length_drop]; omega

theorem chunkBy_mem_length {In : Type} (size : Nat) (hs : 0 < size)
    (input : List In) :
    input ≠ [] → ∀ c ∈ chunkBy size input, 0 < c.length ∧ c.length ≤ size := by
  rw [chunkBy]
  split
  · rename_i h
    intro _hne c hc
    rcases List.mem_cons.mp hc with hc | hc
    · subst hc
      simp [List.length_take]
      omega
    · refine chunkBy_mem_length size hs (input.drop size) ?_ c hc
      intro hd
      have := congrArg List.length hd
      simp at this
      omega
  · rename_i h
    intro hne c hc
    rcases List.mem_singleton.mp hc with rfl
    exact ⟨List.length_pos.mpr hne, by omega⟩
termination_by input.length
decreasing_by simp only [List.length_drop]; omega

/-- C6: `Chunk(nil, n)` is nil; `Chunk` of an empty non-nil slice is empty
but non-nil; a non-positive size behaves as size 1; concatenating the
chunks via `Flatten` reproduces the input; every chunk has the effective
size except a possibly shorter (but non-empty) final chunk. -/
theorem chunk_flatten_spec {In : Type} (xs : List In) (n : Int) :
    Chunk (none : Option (List In)) n = none
    ∧ Chunk (some ([] : List In)) n = some []
    ∧ (n ≤ 0 → Chunk (some xs) n = Chunk (some xs) 1)
    ∧ Flatten (Chunk (some xs) n) = some xs
    ∧ ∃ chunks, Chunk (some xs) n = some chunks
        ∧ (∀ c ∈ chunks.dropLast, c.length = (if n ≤ 0 then 1 else n).toNat)
        ∧ (∀ c ∈ chunks, 0 < c.length ∧ c.length ≤ (if n ≤ 0 then 1 else n).toNat) := by
  have hm : 0 < (if n ≤ 0 then 1 else n).toNat := by
    split <;> omega
  refine ⟨rfl, ?_, ?_, ?_, ?_⟩
  · simp [Chunk, chunksOf]
  · intro hn
    simp [Chunk, chunksOf, if_pos hn]
  · by_cases hxs : xs = []
    · subst hxs
      simp [Chunk, chunksOf, Flatten]
    · have hlen : xs.length ≠ 0 := by
        simpa [List.length_eq_zero] using hxs
      rw [Chunk]
      rw [chunksOf, if_neg hlen, Flatten]
      rw [if_neg (by simpa [List.length_eq_zero] using
        chunkBy_ne_nil (if n ≤ 0 then 1 else n).toNat xs)]
      rw [chunkBy_flatten]
  · by_cases hxs : xs = []
    · subst hxs
      refine ⟨[], by simp [Chunk, chunksOf], by simp, by simp⟩
    · have hlen : xs.length ≠ 0 := by
        simpa [List.length_eq_zero] using hxs
      refine ⟨chunkBy (if n ≤ 0 then 1 else n).toNat xs, ?_, ?_, ?_⟩
      · simp [Chunk, chunksOf, if_neg hlen]
      · exact chunkBy_dropLast_length _ xs
      · exact chunkBy_mem_length _ hm xs hxs

theorem chunk_flatten_spec_witness :
    ((-2 : Int) ≤ 0 ∧
      Chunk (some ([1, 2, 3] : List Nat)) (-2) = Chunk (some [1, 2, 3]) 1)
    ∧ Flatten (Chunk (some ([1, 2, 3] : List Nat)) 2) = some [1, 2, 3] :=
  ⟨⟨by decide, (chunk_flatten_spec [1, 2, 3] (-2)).2.2.1 (by decide)⟩,
    (chunk_flatten_spec [1, 2, 3] 2).2.2.2.1⟩

/-- C9: `SliceError.At` and `SliceError.OriginAt` are total: a negative
index, an index at or past the length, or an empty aggregate yields nil;
in range, `At` yields the wrapped element error and `OriginAt` its bare
underlying error. -/
theorem sliceError_lookup_total {In Err : Type} (e : SliceError In Err) (i : Int) :
    (e.At i = none ↔ i < 0 ∨ (e.length : Int) ≤ i)
    ∧ e.OriginAt i = (e.At i).map ElemError.err
    ∧ ∀ (_h0 : 0 ≤ i) (hl : i.toNat < e.length),
        e.At i = some (e.get ⟨i.toNat, hl⟩) := by
  refine ⟨?_, ?_, ?_⟩
  · rw [SliceError.At]
    split
    · rename_i hlen
      simp only [true_iff]
      omega
    · split
      · rename_i hcond
        simp only [true_iff]
        exact hcond
      · rename_i hlen hcond
        push_neg at hcond
        have htn : i.toNat < e.length := by omega
        simp [List.getElem?_eq_getElem htn]
        omega
  · rw [SliceError.At, SliceError.OriginAt]
    split
    · rfl
    · split
      · rfl
      · cases h : e[i.toNat]? <;> simp
  · intro _h0 hl
    rw [SliceError.At]
    rw [if_neg (by omega), if_neg (by push_neg; omega)]
    simp [List.getElem?_eq_getElem hl, List.get_eq_getElem]

theorem sliceError_lookup_total_witness :
    (0 : Int) ≤ 0 ∧
      SliceError.At ([ElemError.mk 0 5 7] : SliceError Nat Nat) 0
        = some (([ElemError.mk 0 5 7] : SliceError Nat Nat).get
            ⟨(0 : Int).toNat, by decide⟩) :=
  ⟨by decide,
    (sliceError_lookup_total [ElemError.mk 0 5 7] 0).2.2 (by decide) (by decide)⟩

theorem collectLoop_stop {In Out Err P : Type}
    (h : Nat → In → StepAct Out Err P) (x : In) (rest : List In) (i : Nat)
    (res : List Out) (errs : SliceError In Err) (v : Option Out)
    (args : List (Option Err)) (hx : h i x = .callStop v args) :
    collectLoop h (x :: rest) i res errs
      = ([i], .ok (res, errs ++ attachErrs i x args)) := by
  simp [collectLoop, hx]

theorem collectLoop_fail {In Out Err P : Type}
    (h : Nat → In → StepAct Out Err P) (x : In) (rest : List In) (i : Nat)
    (res : List Out) (errs : SliceError In Err) (v : Option Out) (p : P)
    (hx : h i x = .fail v p) :
    collectLoop h (x :: rest) i res errs = ([i], .error p) := by
  simp [collectLoop, hx]

theorem collectLoop_proceeds_prefix {In Out Err P : Type}
    (h : Nat → In → StepAct Out Err P) (pre : List In) :
    ∀ (tail : List In) (i : Nat) (res : List Out) (errs : SliceError In Err),
    (∀ j (hj : j < pre.length), (h (i + j) pre[j]).proceeds = true) →
    collectLoop h (pre ++ tail) i res errs
      = (List.range' i pre.length
          ++ (collectLoop h tail (i + pre.length) (res ++ keptValues h pre i)
              (errs ++ skipErrors h pre i)).1,
         (collectLoop h tail (i + pre.length) (res ++ keptValues h pre i)
              (errs ++ skipErrors h pre i)).2) := by
  induction pre with
  | nil =>
    intro tail i res errs _hpre
    simp [keptValues, skipErrors]
  | cons x pre ih =>
    intro tail i res errs hpre
    have h0 : (h i x).proceeds = true := by
      have := hpre 0 (by simp)
      simpa using this
    have hshift : ∀ j (hj : j < pre.length),
        (h (i + 1 + j) pre[j]).proceeds = true := by
      intro j hj
      have hj1 : j + 1 < (x :: pre).length := by
        simp
        omega
      have := hpre (j + 1) hj1
      rw [show i + (j + 1) = i + 1 + j by omega] at this
      simpa using this
    have harith : i + 1 + pre.length = i + (pre.length + 1) := by omega
    cases hx : h i x with
    | finish value =>
      cases value with
      | some v =>
        simp only [List.cons_append, collectLoop, hx, List.append_eq]
        rw [ih tail (i + 1) (res ++ [v]) errs hshift]
        simp only [keptValues, skipErrors, hx, List.length_cons,
          List.range'_succ, harith]
        simp [List.append_assoc]
      | none =>
        simp only [List.cons_append, collectLoop, hx, List.append_eq]
        rw [ih tail (i + 1) res errs hshift]
        simp only [keptValues, skipErrors, hx, List.length_cons,
          List.range'_succ, harith]
        simp [List.append_assoc]
    | callContinue v args =>
      simp only [List.cons_append, collectLoop, hx, List.append_eq]
      rw [ih tail (i + 1) res (errs ++ attachErrs i x args) hshift]
      simp only [keptValues, skipErrors, hx, List.length_cons,
        List.range'_succ, harith]
      simp [List.append_assoc]
    | callStop v args =>
      rw [hx] at h0
      simp [StepAct.proceeds] at h0
    | fail v p =>
      rw [hx] at h0
      simp [StepAct.proceeds] at h0

theorem collect_all_proceed_core {In Out Err P : Type} (input : List In)
    (h : Nat → In → StepAct Out Err P)
    (hall : ∀ j (hj : j < input.length), (h j input[j]).proceeds = true) :
    Collect input (some h)
      = .ok (keptValues h input 0, mkAgg (skipErrors h input 0))
    ∧ CollectVisited input (some h) = List.range input.length := by
  by_cases hlen : input.length = 0
  · have hnil : input = [] := List.length_eq_zero.mp hlen
    subst hnil
    simp [Collect, CollectVisited, keptValues, skipErrors, mkAgg]
  · have hloop := collectLoop_proceeds_prefix h input [] 0 [] []
      (by simpa using hall)
    rw [List.append_nil] at hloop
    have h1 : (collectLoop h input 0 [] []).1 = List.range' 0 input.length := by
      rw [hloop]
      simp [collectLoop]
    have h2 : (collectLoop h input 0 [] []).2
        = .ok (keptValues h input 0, skipErrors h input 0) := by
      rw [hloop]
      simp [collectLoop]
    constructor
    · simp only [Collect, if_neg hlen, h2, mkAgg]
      split <;> rfl
    · simp only [CollectVisited, if_neg hlen, h1, List.range_eq_range']

theorem collect_stopped_core {In Out Err P : Type} (input : List In)
    (h : Nat → In → StepAct Out Err P) (k : Nat) (hk : k < input.length)
    (hpre : ∀ j (hj : j < k), (h j input[j]).proceeds = true)
    (v : Option Out) (args : List (Option Err))
    (hstop : h k input[k] = .callStop v args) :
    Collect input (some h)
      = .ok (keptValues h (input.take k) 0,
             mkAgg (skipErrors h (input.take k) 0 ++ attachErrs k input[k] args))
    ∧ CollectVisited input (some h) = List.range (k + 1) := by
  have hlen : ¬ input.length = 0 := by omega
  have htk : (input.take k).length = k := by
    simp [List.length_take]
    omega
  have hsplit : input.take k ++ (input[k] :: input.drop (k + 1)) = input := by
    rw [← List.drop_eq_getElem_cons hk, List.take_append_drop]
  have hpre' : ∀ j (hj : j < (input.take k).length),
      (h (0 + j) (input.take k)[j]).proceeds = true := by
    intro j hj
    have hjk : j < k := by omega
    rw [List.getElem_take]
    simpa using hpre j hjk
  have hloop := collectLoop_proceeds_prefix h (input.take k)
      (input[k] :: input.drop (k + 1)) 0 [] [] hpre'
  rw [hsplit] at hloop
  rw [collectLoop_stop h input[k] (input.drop (k + 1)) (0 + (input.take k).length)
      ([] ++ keptValues h (input.take k) 0) ([] ++ skipErrors h (input.take k) 0)
      v args (by rw [htk]; simpa using hstop)] at hloop
  have h1 : (collectLoop h input 0 [] []).1 = List.range (k + 1) := by
    rw [hloop]
    simp [htk, List.range_eq_range', List.range'_concat]
  have h2 : (collectLoop h input 0 [] []).2
      = .ok (keptValues h (input.take k) 0,
             skipErrors h (input.take k) 0 ++ attachErrs k input[k] args) := by
    rw [hloop]
    simp [htk]
  constructor
  · simp only [Collect, if_neg hlen, h2, mkAgg]
    split <;> rfl
  · simp only [CollectVisited, if_neg hlen, h1]

theorem collect_failed_core {In Out Err P : Type} (input : List In)
    (h : Nat → In → StepAct Out Err P) (k : Nat) (hk : k < input.length)
    (hpre : ∀ j (hj : j < k), (h j input[j]).proceeds = true)
    (v : Option Out) (p : P)
    (hfail : h k input[k] = .fail v p) :
    Collect input (some h) = .error p
    ∧ CollectVisited input (some h) = List.range (k + 1) := by
  have hlen : ¬ input.length = 0 := by omega
  have htk : (input.take k).length = k := by
    simp [List.length_take]
    omega
  have hsplit : input.take k ++ (input[k] :: input.drop (k + 1)) = input := by
    rw [← List.drop_eq_getElem_cons hk, List.take_append_drop]
  have hpre' : ∀ j (hj : j < (input.take k).length),
      (h (0 + j) (input.take k)[j]).proceeds = true := by
    intro j hj
    have hjk : j < k := by omega
    rw [List.getElem_take]
    simpa using hpre j hjk
  have hloop := collectLoop_proceeds_prefix h (input.take k)
      (input[k] :: input.drop (k + 1)) 0 [] [] hpre'
  rw [hsplit] at hloop
  rw [collectLoop_fail h input[k] (input.drop (k + 1)) (0 + (input.take k).length)
      ([] ++ keptValues h (input.take k) 0) ([] ++ skipErrors h (input.take k) 0)
      v p (by rw [htk]; simpa using hfail)] at hloop
  have h1 : (collectLoop h input 0 [] []).1 = List.range (k + 1) := by
    rw [hloop]
    simp [htk, List.range_eq_range', List.range'_concat]
  have h2 : (collectLoop h input 0 [] []).2 = .error p := by
    rw [hloop]
  constructor
  · simp only [Collect, if_neg hlen, h2]
  · simp only [CollectVisited, if_neg hlen, h1]

/-- C2: if every invocation before index `k` proceeds (returns normally or
calls `Continue`) and the invocation at index `k` calls `Stop`, then
`Collect` returns exactly the values kept at indices below `k`, in input
order; the non-nil errors attached to the `Stop` call are merged into the
aggregate after the ones accumulated so far; the handler is invoked
exactly at indices `0..k` (no index past `k` is visited), and any value
set at index `k` before the `Stop` call is discarded. -/
theorem collect_stop_prefix {In Out Err P : Type} (input : List In)
    (h : Nat → In → StepAct Out Err P) (k : Nat) (hk : k < input.length)
    (hpre : ∀ j (hj : j < k), (h j input[j]).proceeds = true)
    (v : Option Out) (args : List (Option Err))
    (hstop : h k input[k] = .callStop v args) :
    Collect input (some h)
      = .ok (keptValues h (input.take k) 0,
             mkAgg (skipErrors h (input.take k) 0 ++ attachErrs k input[k] args))
    ∧ CollectVisited input (some h) = List.range (k + 1) :=
  collect_stopped_core input h k hk hpre v args hstop

theorem collect_stop_prefix_witness :
    (1 < ([10, 20, 30] : List Nat).length
      ∧ wStepStop1 1 ([10, 20, 30] : List Nat)[1] = .callStop (some 99) [some 5, none])
    ∧ (Collect [10, 20, 30] (some wStepStop1)
        = .ok (keptValues wStepStop1 ([10, 20, 30].take 1) 0,
               mkAgg (skipErrors wStepStop1 ([10, 20, 30].take 1) 0
                      ++ attachErrs 1 ([10, 20, 30] : List Nat)[1] [some 5, none]))
      ∧ CollectVisited [10, 20, 30] (some wStepStop1) = List.range (1 + 1)) :=
  ⟨⟨by decide, by decide⟩,
    collect_stop_prefix [10, 20, 30] wStepStop1 1 (by decide)
      (by decide) (some 99) [some 5, none] (by decide)⟩

/-- C5: a failure raised by the step function that is not one of the
engine's two control signals propagates to `Collect`'s caller unmodified
(same payload); the engine had absorbed only its own signals up to that
point, and the run ends at the failing index. -/
theorem collect_propagates_failure {In Out Err P : Type} (input : List In)
    (h : Nat → In → StepAct Out Err P) (k : Nat) (hk : k < input.length)
    (hpre : ∀ j (hj : j < k), (h j input[j]).proceeds = true)
    (v : Option Out) (p : P)
    (hfail : h k input[k] = .fail v p) :
    Collect input (some h) = .error p
    ∧ CollectVisited input (some h) = List.range (k + 1) :=
  collect_failed_core input h k hk hpre v p hfail

theorem collect_propagates_failure_witness :
    (1 < ([10, 20, 30] : List Nat).length
      ∧ wStepFail1 1 ([10, 20, 30] : List Nat)[1] = .fail none 3)
    ∧ (Collect [10, 20, 30] (some wStepFail1) = .error 3
      ∧ CollectVisited [10, 20, 30] (some wStepFail1) = List.range (1 + 1)) :=
  ⟨⟨by decide, by decide⟩,
    collect_propagates_failure [10, 20, 30] wStepFail1 1 (by decide)
      (by decide) none 3 (by decide)⟩

theorem keptValues_append {In Out Err P : Type}
    (h : Nat → In → StepAct Out Err P) (l1 l2 : List In) : ∀ (i : Nat),
    keptValues h (l1 ++ l2) i
      = keptValues h l1 i ++ keptValues h l2 (i + l1.length) := by
  induction l1 with
  | nil =>
    intro i
    simp [keptValues]
  | cons x l1 ih =>
    intro i
    have harith : i + 1 + l1.length = i + (l1.length + 1) := by omega
    simp only [List.cons_append, keptValues, List.length_cons]
    cases hx : h i x with
    | finish value =>
      cases value with
      | some v => simp [hx, ih (i + 1), harith]
      | none => simp [hx, ih (i + 1), harith]
    | callContinue v args => simp [hx, ih (i + 1), harith]
    | callStop v args => simp [hx, ih (i + 1), harith]
    | fail v p => simp [hx, ih (i + 1), harith]

theorem skipErrors_append {In Out Err P : Type}
    (h : Nat → In → StepAct Out Err P) (l1 l2 : List In) : ∀ (i : Nat),
    @skipErrors In Out Err P h (l1 ++ l2) i
      = @skipErrors In Out Err P h l1 i
        ++ @skipErrors In Out Err P h l2 (i + l1.length) := by
  induction l1 with
  | nil =>
    intro i
    simp [skipErrors]
  | cons x l1 ih =>
    intro i
    have harith : i + 1 + l1.length = i + (l1.length + 1) := by omega
    simp only [List.cons_append, skipErrors, List.length_cons]
    cases hx : h i x with
    | finish value => simp [hx, ih (i + 1), harith]
    | callContinue v args => simp [hx, ih (i + 1), harith, List.append_assoc]
    | callStop v args => simp [hx, ih (i + 1), harith]
    | fail v p => simp [hx, ih (i + 1), harith]

/-- C3: if the invocation at index `i` calls `Continue` (and every
invocation proceeds), that element contributes nothing to the output even
when a value was set before the `Continue` call (the output is exactly
what the other indices keep), the non-nil errors attached to the call are
merged into the aggregate in position, and processing proceeds through
every subsequent index. -/
theorem collect_continue_discards {In Out Err P : Type} (input : List In)
    (h : Nat → In → StepAct Out Err P) (i : Nat) (hi : i < input.length)
    (hall : ∀ j (hj : j < input.length), (h j input[j]).proceeds = true)
    (v : Option Out) (args : List (Option Err))
    (hcont : h i input[i] = .callContinue v args) :
    Collect input (some h)
      = .ok (keptValues h (input.take i) 0
              ++ keptValues h (input.drop (i + 1)) (i + 1),
             mkAgg (skipErrors h (input.take i) 0
                    ++ attachErrs i input[i] args
                    ++ skipErrors h (input.drop (i + 1)) (i + 1)))
    ∧ CollectVisited input (some h) = List.range input.length := by
  obtain ⟨hc, hv⟩ := collect_all_proceed_core input h hall
  refine ⟨?_, hv⟩
  rw [hc]
  have htk : (input.take i).length = i := by
    simp [List.length_take]
    omega
  have hsplit : input.take i ++ (input[i] :: input.drop (i + 1)) = input := by
    rw [← List.drop_eq_getElem_cons hi, List.take_append_drop]
  have hkept : keptValues h input 0
      = keptValues h (input.take i) 0
        ++ keptValues h (input.drop (i + 1)) (i + 1) := by
    conv_lhs => rw [← hsplit]
    rw [keptValues_append, htk]
    simp only [Nat.zero_add, keptValues, hcont]
  have hskip : @skipErrors In Out Err P h input 0
      = skipErrors h (input.take i) 0 ++ attachErrs i input[i] args
        ++ skipErrors h (input.drop (i + 1)) (i + 1) := by
    conv_lhs => rw [← hsplit]
    rw [skipErrors_append, htk]
    simp only [Nat.zero_add, skipErrors, hcont, List.append_assoc]
  rw [hkept, hskip]

theorem collect_continue_discards_witness :
    (1 < ([10, 20, 30] : List Nat).length
      ∧ wStepCont1 1 ([10, 20, 30] : List Nat)[1]
          = .callContinue (some 42) [none, some 7])
    ∧ (Collect [10, 20, 30] (some wStepCont1)
        = .ok (keptValues wStepCont1 ([10, 20, 30].take 1) 0
                ++ keptValues wStepCont1 ([10, 20, 30].drop (1 + 1)) (1 + 1),
               mkAgg (skipErrors wStepCont1 ([10, 20, 30].take 1) 0
                      ++ attachErrs 1 ([10, 20, 30] : List Nat)[1] [none, some 7]
                      ++ skipErrors wStepCont1 ([10, 20, 30].drop (1 + 1)) (1 + 1)))
      ∧ CollectVisited [10, 20, 30] (some wStepCont1)
          = List.range ([10, 20, 30] : List Nat).length) :=
  ⟨⟨by decide, by decide⟩,
    collect_continue_discards [10, 20, 30] wStepCont1 1 (by decide)
      (by decide) (some 42) [none, some 7] (by decide)⟩

theorem attachErrs_eq {In Err : Type} (index : Nat) (value : In)
    (args : List (Option Err)) :
    attachErrs index value args
      = (args.filterMap id).map (fun e => ElemError.mk index value e) := by
  rw [attachErrs]
  induction args with
  | nil => rfl
  | cons a args ih =>
    cases a <;> simp [List.filterMap_cons, ih]

theorem mkAgg_ne_none {In Err : Type} (l : SliceError In Err) :
    mkAgg l ≠ none ↔ l ≠ [] := by
  unfold mkAgg
  split
  · rename_i hl
    have : l = [] := List.length_eq_zero.mp hl
    simp [this]
  · rename_i hl
    have : l ≠ [] := by simpa [List.length_eq_zero] using hl
    simp [this]

theorem mkAgg_of_ne_nil {In Err : Type} (l : SliceError In Err) (hl : l ≠ []) :
    mkAgg l = some l := by
  unfold mkAgg
  rw [if_neg (by simpa [List.length_eq_zero] using hl)]

theorem unwrap_of_ne_nil {In Err : Type} (l : SliceError In Err) (hl : l ≠ []) :
    SliceError.Unwrap l = some (l.map ElemError.err) := by
  rw [SliceError.Unwrap, if_neg (by simpa [List.length_eq_zero] using hl)]

theorem mem_skipErrors {In Out Err P : Type} (h : Nat → In → StepAct Out Err P)
    (l : List In) : ∀ (i j : Nat) (hj : j < l.length),
    (h (i + j) l[j]).proceeds = true →
    ∀ e ∈ (h (i + j) l[j]).suppliedErrs,
      ElemError.mk (i + j) l[j] e ∈ @skipErrors In Out Err P h l i := by
  induction l with
  | nil =>
    intro i j hj
    simp at hj
  | cons x l ih =>
    intro i j hj hproc e he
    cases j with
    | zero =>
      simp only [List.getElem_cons_zero, Nat.add_zero] at hproc he ⊢
      cases hx : h i x with
      | finish value =>
        rw [hx] at he
        simp [StepAct.suppliedErrs] at he
      | callContinue v args =>
        rw [hx] at he
        simp only [StepAct.suppliedErrs] at he
        simp only [skipErrors, hx]
        refine List.mem_append_left _ ?_
        rw [attachErrs_eq]
        exact List.mem_map.mpr ⟨e, he, rfl⟩
      | callStop v args =>
        rw [hx] at hproc
        simp [StepAct.proceeds] at hproc
      | fail v p =>
        rw [hx] at hproc
        simp [StepAct.proceeds] at hproc
    | succ j =>
      have hj' : j < l.length := by simpa using hj
      have harith : i + (j + 1) = i + 1 + j := by omega
      rw [harith] at hproc he ⊢
      simp only [List.getElem_cons_succ] at hproc he ⊢
      have hmem := ih (i + 1) j hj' hproc e he
      cases hx : h i x with
      | finish value =>
        simp only [skipErrors, hx]
        exact hmem
      | callContinue v args =>
        simp only [skipErrors, hx]
        exact List.mem_append_right _ hmem
      | callStop v args =>
        simp only [skipErrors, hx]
        exact hmem
      | fail v p =>
        simp only [skipErrors, hx]
        exact hmem

theorem skipErrors_ne_nil_exists {In Out Err P : Type}
    (h : Nat → In → StepAct Out Err P) (l : List In) : ∀ (i : Nat),
    @skipErrors In Out Err P h l i ≠ [] →
    ∃ j, ∃ hj : j < l.length, (h (i + j) l[j]).suppliedErrs ≠ [] := by
  induction l with
  | nil =>
    intro i hne
    simp [skipErrors] at hne
  | cons x l ih =>
    intro i hne
    have hstep : ∀ (hrest : @skipErrors In Out Err P h l (i + 1) ≠ []),
        ∃ j, ∃ hj : j < (x :: l).length, (h (i + j) (x :: l)[j]).suppliedErrs ≠ [] := by
      intro hrest
      obtain ⟨j, hj, hsup⟩ := ih (i + 1) hrest
      refine ⟨j + 1, by simpa using Nat.succ_lt_succ hj, ?_⟩
      rw [show i + (j + 1) = i + 1 + j by omega]
      simpa using hsup
    cases hx : h i x with
    | finish value =>
      simp only [skipErrors, hx] at hne
      exact hstep hne
    | callContinue v args =>
      simp only [skipErrors, hx] at hne
      by_cases hatt : @attachErrs In Err i x args = []
      · rw [hatt] at hne
        simp only [List.nil_append] at hne
        exact hstep hne
      · refine ⟨0, by simp, ?_⟩
        simp only [Nat.add_zero, List.getElem_cons_zero, hx, StepAct.suppliedErrs]
        intro hfm
        rw [attachErrs_eq, hfm] at hatt
        exact hatt rfl
    | callStop v args =>
      simp only [skipErrors, hx] at hne
      exact hstep hne
    | fail v p =>
      simp only [skipErrors, hx] at hne
      exact hstep hne

/-- C4: for a step function that never raises an unrelated failure,
`Collect` returns normally, and the returned error is non-nil iff some
invoked `Continue`/`Stop` call supplied at least one non-nil error
argument (nil arguments are ignored); every supplied non-nil error is
recoverable by identity from the aggregate through `Unwrap`
(`errors.Is`-style membership in the joined errors). -/
theorem collect_error_iff_supplied {In Out Err P : Type} (input : List In)
    (h : Nat → In → StepAct Out Err P)
    (hnofail : ∀ j (hj : j < input.length), (h j input[j]).isFail = false) :
    ∃ out agg, Collect input (some h) = .ok (out, agg)
      ∧ (agg ≠ none ↔ ∃ j, ∃ hj : j < input.length,
            j ∈ CollectVisited input (some h)
            ∧ (h j input[j]).suppliedErrs ≠ [])
      ∧ (∀ j (hj : j < input.length), j ∈ CollectVisited input (some h) →
          ∀ e ∈ (h j input[j]).suppliedErrs,
            ∃ lerr, agg = some lerr
              ∧ SliceError.Unwrap lerr = some (lerr.map ElemError.err)
              ∧ e ∈ lerr.map ElemError.err) := by
  classical
  by_cases hall : ∀ j (hj : j < input.length), (h j input[j]).proceeds = true
  · obtain ⟨hc, hv⟩ := collect_all_proceed_core input h hall
    refine ⟨keptValues h input 0, mkAgg (skipErrors h input 0), hc, ?_, ?_⟩
    · rw [mkAgg_ne_none]
      constructor
      · intro hne
        obtain ⟨j, hj, hsup⟩ := skipErrors_ne_nil_exists h input 0 hne
        refine ⟨j, hj, ?_, by simpa using hsup⟩
        rw [hv]
        exact List.mem_range.mpr hj
      · rintro ⟨j, hj, _hmem, hsup⟩
        obtain ⟨e, he⟩ := List.exists_mem_of_ne_nil _ hsup
        have helem := mem_skipErrors h input 0 j hj
          (by simpa using hall j hj) e (by simpa using he)
        exact List.ne_nil_of_mem helem
    · intro j hj _hmem e he
      have helem := mem_skipErrors h input 0 j hj
        (by simpa using hall j hj) e (by simpa using he)
      have hne : @skipErrors In Out Err P h input 0 ≠ [] :=
        List.ne_nil_of_mem helem
      exact ⟨skipErrors h input 0, by rw [mkAgg_of_ne_nil _ hne],
        unwrap_of_ne_nil _ hne, List.mem_map.mpr ⟨_, helem, rfl⟩⟩
  · push_neg at hall
    obtain ⟨j0, hj0, hnp0⟩ := hall
    have hQ : ∃ j, ∃ hj : j < input.length, ¬ (h j input[j]).proceeds = true :=
      ⟨j0, hj0, hnp0⟩
    set k := Nat.find hQ with hkdef
    obtain ⟨hk, hknp⟩ := Nat.find_spec hQ
    have hpre : ∀ j (hj : j < k), (h j input[j]).proceeds = true := by
      intro j hj
      by_contra hnp
      exact Nat.find_min hQ hj ⟨by omega, hnp⟩
    have htk : (input.take k).length = k := by
      simp [List.length_take]
      omega
    obtain ⟨v, args, hx⟩ :
        ∃ v args, h k input[k] = .callStop v args := by
      cases hxx : h k input[k] with
      | finish value =>
        rw [hxx] at hknp
        simp [StepAct.proceeds] at hknp
      | callContinue v args =>
        rw [hxx] at hknp
        simp [StepAct.proceeds] at hknp
      | callStop v args => exact ⟨v, args, rfl⟩
      | fail v p =>
        have := hnofail k hk
        rw [hxx] at this
        simp [StepAct.isFail] at this
    obtain ⟨hc, hv⟩ := collect_stopped_core input h k hk hpre v args hx
    have hsupk : (h k input[k]).suppliedErrs = args.filterMap id := by
      rw [hx]
      rfl
    have hattach : @attachErrs In Err k input[k] args = []
        ↔ args.filterMap id = [] := by
      rw [attachErrs_eq]
      simp
    refine ⟨keptValues h (input.take k) 0,
      mkAgg (skipErrors h (input.take k) 0 ++ attachErrs k input[k] args),
      hc, ?_, ?_⟩
    · rw [mkAgg_ne_none]
      constructor
      · intro hne
        by_cases hs : @skipErrors In Out Err P h (input.take k) 0 = []
        · have ha : @attachErrs In Err k input[k] args ≠ [] := by
            intro ha
            rw [hs, ha] at hne
            exact hne rfl
          refine ⟨k, hk, ?_, ?_⟩
          · rw [hv]
            exact List.mem_range.mpr (by omega)
          · rw [hsupk]
            intro hfm
            exact ha (hattach.mpr hfm)
        · obtain ⟨j, hj, hsup⟩ := skipErrors_ne_nil_exists h (input.take k) 0 hs
          have hjk : j < k := by omega
          refine ⟨j, by omega, ?_, ?_⟩
          · rw [hv]
            exact List.mem_range.mpr (by omega)
          · rw [List.getElem_take] at hsup
            simpa using hsup
      · rintro ⟨j, hj, hmem, hsup⟩
        rw [hv] at hmem
        have hjk : j < k + 1 := List.mem_range.mp hmem
        intro hnil
        rw [List.append_eq_nil] at hnil
        obtain ⟨hs, ha⟩ := hnil
        rcases Nat.lt_or_ge j k with hlt | hge
        · obtain ⟨e, he⟩ := List.exists_mem_of_ne_nil _ hsup
          have helem := mem_skipErrors h (input.take k) 0 j (by omega)
            (by rw [List.getElem_take]; simpa using hpre j hlt) e
            (by rw [List.getElem_take]; simpa using he)
          rw [hs] at helem
          exact List.not_mem_nil _ helem
        · have hjek : j = k := by omega
          subst hjek
          rw [hsupk] at hsup
          exact hsup (hattach.mp ha)
    · intro j hj hmem e he
      rw [hv] at hmem
      have hjk1 : j < k + 1 := List.mem_range.mp hmem
      have hin : ∃ el, el ∈ @skipErrors In Out Err P h (input.take k) 0
            ++ attachErrs k input[k] args ∧ ElemError.err el = e := by
        rcases Nat.lt_or_ge j k with hlt | hge
        · have helem := mem_skipErrors h (input.take k) 0 j (by omega)
            (by rw [List.getElem_take]; simpa using hpre j hlt) e
            (by rw [List.getElem_take]; simpa using he)
          exact ⟨_, List.mem_append_left _ helem, rfl⟩
        · have hjek : j = k := by omega
          subst hjek
          rw [hsupk] at he
          have hmm : ElemError.mk k input[k] e
              ∈ @attachErrs In Err k input[k] args := by
            rw [attachErrs_eq]
            exact List.mem_map.mpr ⟨e, he, rfl⟩
          exact ⟨_, List.mem_append_right _ hmm, rfl⟩
      obtain ⟨el, helm, herr⟩ := hin
      have hne : @skipErrors In Out Err P h (input.take k) 0
          ++ attachErrs k input[k] args ≠ [] := List.ne_nil_of_mem helm
      refine ⟨_, by rw [mkAgg_of_ne_nil _ hne], unwrap_of_ne_nil _ hne, ?_⟩
      rw [← herr]
      exact List.mem_map.mpr ⟨el, helm, rfl⟩

theorem collect_error_iff_supplied_witness :
    (∀ j (hj : j < ([10, 20, 30] : List Nat).length),
        (wStepCont1 j ([10, 20, 30] : List Nat)[j]).isFail = false)
    ∧ ∃ out agg, Collect [10, 20, 30] (some wStepCont1) = .ok (out, agg)
      ∧ (agg ≠ none ↔ ∃ j, ∃ hj : j < ([10, 20, 30] : List Nat).length,
            j ∈ CollectVisited [10, 20, 30] (some wStepCont1)
            ∧ (wStepCont1 j ([10, 20, 30] : List Nat)[j]).suppliedErrs ≠ [])
      ∧ (∀ j (hj : j < ([10, 20, 30] : List Nat).length),
          j ∈ CollectVisited [10, 20, 30] (some wStepCont1) →
          ∀ e ∈ (wStepCont1 j ([10, 20, 30] : List Nat)[j]).suppliedErrs,
            ∃ lerr, agg = some lerr
              ∧ SliceError.Unwrap lerr = some (lerr.map ElemError.err)
              ∧ e ∈ lerr.map ElemError.err) :=
  ⟨by decide, collect_error_iff_supplied [10, 20, 30] wStepCont1 (by decide)⟩

theorem filterStep_eq_pos {In : Type} (p : In → Bool) (i : Nat) (x : In)
    (hp : p x = true) : filterStep p i x = .finish (some x) := by
  simp [filterStep, hp]

theorem filterStep_eq_neg {In : Type} (p : In → Bool) (i : Nat) (x : In)
    (hp : p x = false) : filterStep p i x = .callContinue none [] := by
  simp [filterStep, hp]

theorem collectLoop_filter {In : Type} (p : In → Bool) (l : List In) :
    ∀ (i : Nat) (res : List In) (errs : SliceError In Empty),
    (collectLoop (filterStep p) l i res errs).2
      = .ok (res ++ l.filter p, errs) := by
  induction l with
  | nil =>
    intro i res errs
    simp [collectLoop]
  | cons x l ih =>
    intro i res errs
    cases hp : p x with
    | true =>
      simp only [collectLoop, filterStep_eq_pos p i x hp]
      rw [ih]
      simp [List.filter_cons, hp]
    | false =>
      simp only [collectLoop, filterStep_eq_neg p i x hp]
      rw [ih]
      simp [List.filter_cons, hp, attachErrs]

theorem collect_filter {In : Type} (p : In → Bool) (xs : List In)
    (hxs : ¬ xs.length = 0) :
    @Collect In In Empty Empty xs (some (filterStep p))
      = .ok (xs.filter p, none) := by
  rw [Collect, if_neg hxs, collectLoop_filter p xs 0 [] []]
  simp

/-- C7: `Filter` returns exactly the elements satisfying the predicate,
in their original relative order, so its length is the count of
satisfying elements; an absent (nil) predicate — and hence also an empty
input — returns the input itself unchanged. -/
theorem filter_spec {In : Type} (xs : List In) :
    (∀ p : In → Bool, Filter xs (some p) = xs.filter p
      ∧ (Filter xs (some p)).length = xs.countP p)
    ∧ Filter xs none = xs := by
  have hfil : ∀ p : In → Bool, Filter xs (some p) = xs.filter p := by
    intro p
    by_cases hxs : xs.length = 0
    · have hnil : xs = [] := List.length_eq_zero.mp hxs
      subst hnil
      simp [Filter]
    · rw [Filter, if_neg (by simp [hxs]), collect_filter p xs hxs]
  refine ⟨fun p => ⟨hfil p, ?_⟩, ?_⟩
  · rw [hfil p]
    exact (List.countP_eq_length_filter p xs).symm
  · simp [Filter]

theorem seqChunks_spec {In Err : Type} (h : List In → Option Err)
    (chunks : List (List In)) :
    ((∃ e, (seqChunks (some h) chunks).2 = some (some e))
      ↔ ∃ c ∈ (seqChunks (some h) chunks).1, (h c).isSome = true)
    ∧ (∀ e, (seqChunks (some h) chunks).2 = some (some e) →
        ∃ c ∈ (seqChunks (some h) chunks).1, h c = some e)
    ∧ (seqChunks (some h) chunks).2 ≠ none := by
  induction chunks with
  | nil => simp [seqChunks]
  | cons c rest ih =>
    cases hc : h c with
    | some err =>
      have heq : seqChunks (some h) (c :: rest) = ([c], some (some err)) := by
        simp [seqChunks, hc]
      rw [heq]
      refine ⟨?_, ?_, by simp⟩
      · constructor
        · intro _
          exact ⟨c, List.mem_singleton.mpr rfl, by simp [hc]⟩
        · intro _
          exact ⟨err, rfl⟩
      · intro e he
        have hee : err = e := by
          simpa using he
        subst hee
        exact ⟨c, List.mem_singleton.mpr rfl, hc⟩
    | none =>
      obtain ⟨ih1, ih2, ih3⟩ := ih
      have heq : seqChunks (some h) (c :: rest)
          = (c :: (seqChunks (some h) rest).1, (seqChunks (some h) rest).2) := by
        simp [seqChunks, hc]
      rw [heq]
      refine ⟨?_, ?_, ih3⟩
      · rw [ih1]
        constructor
        · rintro ⟨c', hc', hs⟩
          exact ⟨c', List.mem_cons_of_mem _ hc', hs⟩
        · rintro ⟨c', hc', hs⟩
          rcases List.mem_cons.mp hc' with rfl | hc'
          · rw [hc] at hs
            simp at hs
          · exact ⟨c', hc', hs⟩
      · intro e he
        obtain ⟨c', hc', hce⟩ := ih2 e he
        exact ⟨c', List.mem_cons_of_mem _ hc', hce⟩

/-- C8: `ForEachChunk` returns a non-nil error iff at least one invoked
handler returned a non-nil error; any returned error was actually
produced by an invoked handler; in the concurrent path every dispatched
chunk's handler runs to completion before the call returns (the invoked
trace is the whole chunk list); and with a non-nil handler the call never
panics. -/
theorem forEachChunk_error_iff {In Err : Type} (input : List In)
    (chunkSize concurrency : Int) (h : List In → Option Err) :
    ((∃ e, ForEachChunk input chunkSize concurrency (some h) = some (some e))
      ↔ ∃ c ∈ (ForEachChunkTrace input chunkSize concurrency (some h)).1,
          (h c).isSome = true)
    ∧ (∀ e, ForEachChunk input chunkSize concurrency (some h) = some (some e) →
        ∃ c ∈ (ForEachChunkTrace input chunkSize concurrency (some h)).1,
          h c = some e)
    ∧ (1 < concurrency →
        (ForEachChunkTrace input chunkSize concurrency (some h)).1
          = chunksOf input chunkSize)
    ∧ ForEachChunk input chunkSize concurrency (some h) ≠ none := by
  by_cases hlen : input.length = 0
  · have hnil : input = [] := List.length_eq_zero.mp hlen
    subst hnil
    have heq : ForEachChunkTrace ([] : List In) chunkSize concurrency (some h)
        = ([], some none) := by
      rw [ForEachChunkTrace]
      simp
    rw [ForEachChunk, heq]
    simp [chunksOf]
  · by_cases hcon : concurrency ≤ 1
    · have heq : ForEachChunkTrace input chunkSize concurrency (some h)
          = seqChunks (some h) (chunksOf input chunkSize) := by
        rw [ForEachChunkTrace, if_neg hlen, if_pos hcon]
      rw [ForEachChunk, heq]
      obtain ⟨h1, h2, h3⟩ := seqChunks_spec h (chunksOf input chunkSize)
      exact ⟨h1, h2, fun hcc => absurd hcc (by omega), h3⟩
    · have heq : ForEachChunkTrace input chunkSize concurrency (some h)
          = (chunksOf input chunkSize,
             some ((chunksOf input chunkSize).filterMap h).head?) := by
        rw [ForEachChunkTrace, if_neg hlen, if_neg hcon]
        rfl
      rw [ForEachChunk, heq]
      refine ⟨?_, ?_, fun _ => rfl, by simp⟩
      · constructor
        · rintro ⟨e, he⟩
          have he' : (List.filterMap h (chunksOf input chunkSize)).head?
              = some e := by
            simpa using he
          have hmem : e ∈ List.filterMap h (chunksOf input chunkSize) :=
            List.mem_of_mem_head? (by simpa [Option.mem_def] using he')
          obtain ⟨c, hc, hce⟩ := List.mem_filterMap.mp hmem
          exact ⟨c, hc, by simp [hce]⟩
        · rintro ⟨c, hc, hs⟩
          obtain ⟨e, he⟩ := Option.isSome_iff_exists.mp hs
          have hmem : e ∈ List.filterMap h (chunksOf input chunkSize) :=
            List.mem_filterMap.mpr ⟨c, hc, he⟩
          obtain ⟨hd, tl, hcons⟩ :=
            List.exists_cons_of_ne_nil (List.ne_nil_of_mem hmem)
          exact ⟨hd, by simp [hcons]⟩
      · intro e he
        have he' : (List.filterMap h (chunksOf input chunkSize)).head?
            = some e := by
          simpa using he
        have hmem : e ∈ List.filterMap h (chunksOf input chunkSize) :=
          List.mem_of_mem_head? (by simpa [Option.mem_def] using he')
        exact List.mem_filterMap.mp hmem

theorem forEachChunk_error_iff_witness :
    (1 : Int) < 2
    ∧ (ForEachChunkTrace [0, 1, 2] 1 2 (some wChunkErr0)).1
        = chunksOf [0, 1, 2] 1 :=
  ⟨by decide, (forEachChunk_error_iff [0, 1, 2] 1 2 wChunkErr0).2.2.1 (by decide)⟩

/-- C1 counterexample: with `concurrency = 1` and a handler that errs on
the first chunk, the second chunk of `Chunk([0,1], 1)` exists but the
handler is never invoked on it — an earlier chunk's error skips it. -/
theorem forEachChunk_seq_skips_after_error :
    [1] ∈ chunksOf ([0, 1] : List Nat) 1
    ∧ [1] ∉ (ForEachChunkTrace [0, 1] 1 1 (some wChunkErr0)).1 := by
  have hch : chunksOf ([0, 1] : List Nat) 1 = [[0], [1]] := by
    simp [chunksOf, chunkBy]
  constructor
  · rw [hch]
    decide
  · rw [ForEachChunkTrace, if_neg (by decide)]
    simp only [hch]
    rw [if_pos (by decide)]
    simp [seqChunks, wChunkErr0]

/-- C1 amended: when `concurrency > 1`, `ForEachChunk` invokes the
handler on every chunk exactly once (its invocation trace is exactly the
chunk list, in order) regardless of which invocations return non-nil
errors; with `concurrency ≤ 1` chunks after a first error are skipped. -/
theorem forEachChunk_concurrent_visits_all {In Err : Type} (input : List In)
    (chunkSize concurrency : Int) (h : List In → Option Err)
    (hc : 1 < concurrency) :
    (ForEachChunkTrace input chunkSize concurrency (some h)).1
      = chunksOf input chunkSize := by
  by_cases hlen : input.length = 0
  · have hnil : input = [] := List.length_eq_zero.mp hlen
    subst hnil
    rw [ForEachChunkTrace]
    simp [chunksOf]
  · rw [ForEachChunkTrace, if_neg hlen, if_neg (by omega)]
    rfl

theorem forEachChunk_concurrent_visits_all_witness :
    (1 : Int) < 2
    ∧ (ForEachChunkTrace [0, 1, 2] 2 2 (some wChunkErr01)).1
        = chunksOf [0, 1, 2] 2 :=
  ⟨by decide,
    forEachChunk_concurrent_visits_all [0, 1, 2] 2 2 wChunkErr01 (by decide)⟩

theorem chunksOf_ne_nil {In : Type} (input : List In) (size : Int)
    (hlen : ¬ input.length = 0) : chunksOf input size ≠ [] := by
  rw [chunksOf, if_neg hlen]
  exact chunkBy_ne_nil _ input

theorem seqChunks_none {In Err : Type} (c : List In) (rest : List (List In)) :
    @seqChunks In Err none (c :: rest) = ([c], none) := by
  simp [seqChunks]

theorem seqChunks_fst_ne_nil {In Err : Type}
    (handler : Option (List In → Option Err)) (c : List In)
    (rest : List (List In)) : (seqChunks handler (c :: rest)).1 ≠ [] := by
  cases handler with
  | none => simp [seqChunks]
  | some h => cases hc : h c <;> simp [seqChunks, hc]

/-- C10: `ForEachChunk` has no guard for an absent handler: an empty
input returns nil without touching the handler (even a nil one), but a
non-empty input invokes the handler unconditionally on at least one
chunk, so a nil handler is a runtime panic; `Collect`, by contrast,
treats a nil step function as a normal non-failure path. -/
theorem forEachChunk_nil_handler {In Out Err P : Type} (input : List In)
    (chunkSize concurrency : Int) :
    (input.length = 0 → ∀ handler : Option (List In → Option Err),
      ForEachChunk input chunkSize concurrency handler = some none)
    ∧ (¬ input.length = 0 →
        @ForEachChunk In Err input chunkSize concurrency none = none)
    ∧ (¬ input.length = 0 → ∀ h : List In → Option Err,
        (ForEachChunkTrace input chunkSize concurrency (some h)).1 ≠ [])
    ∧ @Collect In Out Err P input none = .ok ([], none) := by
  refine ⟨?_, ?_, ?_, rfl⟩
  · intro hlen handler
    have hnil : input = [] := List.length_eq_zero.mp hlen
    subst hnil
    rw [ForEachChunk, ForEachChunkTrace]
    simp
  · intro hlen
    by_cases hcon : concurrency ≤ 1
    · obtain ⟨c, rest, hcr⟩ :=
        List.exists_cons_of_ne_nil (chunksOf_ne_nil input chunkSize hlen)
      rw [ForEachChunk, ForEachChunkTrace, if_neg hlen, if_pos hcon, hcr,
        seqChunks_none]
    · rw [ForEachChunk, ForEachChunkTrace, if_neg hlen, if_neg hcon]
      rfl
  · intro hlen h
    by_cases hcon : concurrency ≤ 1
    · obtain ⟨c, rest, hcr⟩ :=
        List.exists_cons_of_ne_nil (chunksOf_ne_nil input chunkSize hlen)
      rw [ForEachChunkTrace, if_neg hlen, if_pos hcon, hcr]
      exact seqChunks_fst_ne_nil _ c rest
    · rw [ForEachChunkTrace, if_neg hlen, if_neg hcon]
      simpa [concChunks] using chunksOf_ne_nil input chunkSize hlen

theorem forEachChunk_nil_handler_witness :
    (¬ ([1] : List Nat).length = 0
      ∧ @ForEachChunk Nat Nat ([1] : List Nat) 1 1 none = none)
    ∧ @Collect Nat Nat Nat Nat ([1] : List Nat) none
        = .ok ([], none) :=
  ⟨⟨by decide,
      (@forEachChunk_nil_handler Nat Nat Nat Nat [1] 1 1).2.1 (by decide)⟩,
    (@forEachChunk_nil_handler Nat Nat Nat Nat [1] 1 1).2.2.2⟩

end Slice
